import Mathlib

/-!
Verification of the SARIF viewer's states-table core logic: the variable-name
token scanner (`renderVariableName` in details.tsx), the temporal navigation
queries (`findInitialized`, `findPreviouslyChanged`, `findNextChanged`,
`findLastChanged`), the per-step state projection, and the table sort state.

Text is modelled as `List Char`; the five JavaScript regex pattern families are
embedded as explicit matchers reproducing the greedy/backtracking semantics of
the literal regexes, and the `exec`-with-`g` loop as an advancing scan.
-/

namespace SarifStates

/-- ASCII identifier start, the regex class `[a-zA-Z_]`. -/
def isIdentStart (c : Char) : Bool := c.isAlpha || c = '_'

/-- ASCII identifier character, the regex class `[a-zA-Z0-9_]`. -/
def isIdentChar (c : Char) : Bool := c.isAlpha || c.isDigit || c = '_'

/-- The boundary class of pattern 5, `[^a-zA-Z0-9_.]`. -/
def isBoundary (c : Char) : Bool := !(isIdentChar c || c = '.')

/-- One identifier: `[a-zA-Z_][a-zA-Z0-9_]*`, greedy.  Returns the run and the
remaining characters. -/
def identRun (l : List Char) : Option (List Char × List Char) :=
  match l with
  | [] => none
  | c :: _ =>
    if isIdentStart c then some (l.takeWhile isIdentChar, l.dropWhile isIdentChar)
    else none

/-- The optional subscript suffix (for example a backtick, digits, one optional
lowercase letter): regex `(?:[intro]\d+[a-z]?)?` at the end of a pattern.
Returns the consumed characters and the rest. -/
def subSuffix (intros : List Char) (l : List Char) : List Char × List Char :=
  match l with
  | [] => ([], [])
  | c :: l1 =>
    if c ∈ intros then
      if l1.takeWhile Char.isDigit = [] then ([], c :: l1)
      else
        match l1.dropWhile Char.isDigit with
        | [] => (c :: l1.takeWhile Char.isDigit, [])
        | d :: l3 =>
          if d.isLower then (c :: (l1.takeWhile Char.isDigit ++ [d]), l3)
          else (c :: l1.takeWhile Char.isDigit, d :: l3)
    else ([], c :: l1)

/-- Greedy `(?:\.[a-zA-Z_][a-zA-Z0-9_]*)*` (the caller enforces the `+`).
Fuel-based so that it reduces in the kernel; fuel `l.length` is always enough
since every iteration consumes at least two characters. -/
def dotSegs : Nat → List Char → List Char × List Char
  | 0, l => ([], l)
  | fuel + 1, l =>
    match l with
    | '.' :: l1 =>
      match identRun l1 with
      | some (r, rest) =>
        let q := dotSegs fuel rest
        ('.' :: (r ++ q.1), q.2)
      | none => ([], l)
    | _ => ([], l)

/-- Greedy `(?:->[a-zA-Z_][a-zA-Z0-9_]*)*` (the caller enforces the `+`). -/
def arrowSegs : Nat → List Char → List Char × List Char
  | 0, l => ([], l)
  | fuel + 1, l =>
    match l with
    | '-' :: '>' :: l1 =>
      match identRun l1 with
      | some (r, rest) =>
        let q := arrowSegs fuel rest
        ('-' :: '>' :: (r ++ q.1), q.2)
      | none => ([], l)
    | _ => ([], l)

/-- The optional trailing `(?:\(\))?` of pattern 1. -/
def parenOpt (l : List Char) : List Char × List Char :=
  match l with
  | '(' :: ')' :: l1 => (['(', ')'], l1)
  | _ => ([], l)

/-- Pattern 1, dot notation:
`([a-zA-Z_][a-zA-Z0-9_]*(?:\.[a-zA-Z_][a-zA-Z0-9_]*)+(?:\(\))?(?:`\d+[a-z]?)?)`
matched at the head of `l`.  On success, the matched text and the rest. -/
def matchDot (l : List Char) : Option (List Char × List Char) :=
  match identRun l with
  | none => none
  | some (r0, l1) =>
    match dotSegs l1.length l1 with
    | ([], _) => none
    | (c :: sg, rest1) =>
      some (r0 ++ ((c :: sg) ++
          ((parenOpt rest1).1 ++ (subSuffix ['`'] (parenOpt rest1).2).1)),
        (subSuffix ['`'] (parenOpt rest1).2).2)

/-- Pattern 2, arrow notation:
`([a-zA-Z_][a-zA-Z0-9_]*(?:->[a-zA-Z_][a-zA-Z0-9_]*)+(?:`\d+[a-z]?)?)`. -/
def matchArrow (l : List Char) : Option (List Char × List Char) :=
  match identRun l with
  | none => none
  | some (r0, l1) =>
    match arrowSegs l1.length l1 with
    | ([], _) => none
    | (c :: sg, rest1) =>
      some (r0 ++ ((c :: sg) ++ (subSuffix ['`'] rest1).1),
        (subSuffix ['`'] rest1).2)

/-- Pattern 3, offset expressions: `(offset\([^)]+\)(?:`\d+[a-z]?)?)`. -/
def matchOffset (l : List Char) : Option (List Char × List Char) :=
  match l with
  | 'o' :: 'f' :: 'f' :: 's' :: 'e' :: 't' :: '(' :: l1 =>
    if l1.takeWhile (fun c => c ≠ ')') = [] then none
    else
      match l1.dropWhile (fun c => c ≠ ')') with
      | ')' :: l3 =>
        some ('o' :: 'f' :: 'f' :: 's' :: 'e' :: 't' :: '(' ::
          (l1.takeWhile (fun c => c ≠ ')') ++ (')' :: (subSuffix ['`'] l3).1)),
          (subSuffix ['`'] l3).2)
      | _ => none
  | _ => none

/-- Pattern 4, curly brace expressions: `(\{[^}]+\}(?:[`']\d+[a-z]?)?)`. -/
def matchBrace (l : List Char) : Option (List Char × List Char) :=
  match l with
  | '{' :: l1 =>
    if l1.takeWhile (fun c => c ≠ '}') = [] then none
    else
      match l1.dropWhile (fun c => c ≠ '}') with
      | '}' :: l3 =>
        some ('{' :: (l1.takeWhile (fun c => c ≠ '}') ++
            ('}' :: (subSuffix ['`', '\''] l3).1)),
          (subSuffix ['`', '\''] l3).2)
      | _ => none
  | _ => none

/-- The capture and boundary of pattern 5 after the prefix alternative:
group 2 `[a-zA-Z_][a-zA-Z0-9_]*(?:`\d+[a-z]?)?` (the subscript suffix is part
of the capture) followed by group 3 `($|[^a-zA-Z0-9_.])`, with the regex
engine's backtracking resolved.  Returns (group 2 text, consumed group 3
characters, rest). -/
def attempt5 (l : List Char) : Option (List Char × List Char × List Char) :=
  match identRun l with
  | none => none
  | some (r, l2) =>
    match l2 with
    | [] => some (r, [], [])
    | c :: l3 =>
      if c = '`' then
        if l3.takeWhile Char.isDigit = [] then some (r, [c], l3)
        else
          match l3.dropWhile Char.isDigit with
          | [] => some (r ++ (c :: l3.takeWhile Char.isDigit), [], [])
          | d :: l5 =>
            if d.isLower then
              match l5 with
              | [] => some (r ++ (c :: (l3.takeWhile Char.isDigit ++ [d])), [], [])
              | e :: l6 =>
                if isBoundary e then
                  some (r ++ (c :: (l3.takeWhile Char.isDigit ++ [d])), [e], l6)
                else some (r, [c], l3)
            else
              if isBoundary d then some (r ++ (c :: l3.takeWhile Char.isDigit), [d], l5)
              else some (r, [c], l3)
      else
        if isBoundary c then some (r, [c], l3) else none

/-- The result of one regex match attempt: the prefix before the captured
variable (pattern 5's group 1), the captured text, the consumed characters
after it (pattern 5's subscript and group 3), and the rest of the input. -/
structure MatchParts where
  pre : List Char
  tok : List Char
  mid : List Char
  rest : List Char

/-- Pattern 5, simple words:
`(^|[^a-zA-Z0-9_.])([a-zA-Z_][a-zA-Z0-9_]*(?:`\d+[a-z]?)?)($|[^a-zA-Z0-9_.])`
attempted at absolute position `p` (the `^` alternative applies only at 0). -/
def match5 (p : Nat) (l : List Char) : Option MatchParts :=
  if p = 0 then
    match attempt5 l with
    | some (t, m, r) => some ⟨[], t, m, r⟩
    | none =>
      match l with
      | c :: l1 =>
        if isBoundary c then
          match attempt5 l1 with
          | some (t, m, r) => some ⟨[c], t, m, r⟩
          | none => none
        else none
      | [] => none
  else
    match l with
    | c :: l1 =>
      if isBoundary c then
        match attempt5 l1 with
        | some (t, m, r) => some ⟨[c], t, m, r⟩
        | none => none
      else none
    | [] => none

/-- Lift a single-capture matcher (patterns 1-4) to `MatchParts`. -/
def liftSimple (f : List Char → Option (List Char × List Char)) :
    Nat → List Char → Option MatchParts :=
  fun _ l =>
    match f l with
    | some (t, r) => some ⟨[], t, [], r⟩
    | none => none

/-- A collected raw match, the source's `{ match, index, length }` with
`length = match.length`. -/
structure RawMatch where
  index : Nat
  text : List Char
deriving DecidableEq

/-- Leftmost match of a pattern family at or after position `p`, as
`RegExp.exec` finds it.  Fuel-based; `s.length + 1 - p` fuel is enough. -/
def firstMatchFrom (f : Nat → List Char → Option MatchParts) (s : List Char) :
    Nat → Nat → Option (Nat × MatchParts)
  | 0, _ => none
  | fuel + 1, p =>
    if p ≤ s.length then
      match f p (s.drop p) with
      | some m => some (p, m)
      | none => firstMatchFrom f s fuel (p + 1)
    else none

/-- The `while ((match = pattern.exec(text)) !== null)` loop of the source:
repeatedly take the leftmost match from `lastIndex` and advance `lastIndex`
past the whole match.  Fuel `s.length + 1` is enough since every match
consumes at least one character. -/
def execAll (f : Nat → List Char → Option MatchParts) (s : List Char) :
    Nat → Nat → List RawMatch
  | 0, _ => []
  | fuel + 1, p =>
    match firstMatchFrom f s (s.length + 1 - p) p with
    | none => []
    | some (q, m) =>
      ⟨q + m.pre.length, m.tok⟩ ::
        execAll f s fuel (q + (m.pre.length + m.tok.length + m.mid.length))

/-- All raw matches of pattern family 1 over `s`, in match order. -/
def collectFam1 (s : List Char) : List RawMatch :=
  execAll (liftSimple matchDot) s (s.length + 1) 0

/-- All raw matches of pattern family 2 over `s`. -/
def collectFam2 (s : List Char) : List RawMatch :=
  execAll (liftSimple matchArrow) s (s.length + 1) 0

/-- All raw matches of pattern family 3 over `s`. -/
def collectFam3 (s : List Char) : List RawMatch :=
  execAll (liftSimple matchOffset) s (s.length + 1) 0

/-- All raw matches of pattern family 4 over `s`. -/
def collectFam4 (s : List Char) : List RawMatch :=
  execAll (liftSimple matchBrace) s (s.length + 1) 0

/-- All raw matches of pattern family 5 over `s`. -/
def collectFam5 (s : List Char) : List RawMatch :=
  execAll match5 s (s.length + 1) 0

/-- The source's `matches` array: the five families' matches concatenated in
family order, keeping a match only when `matchText && matchText.trim()` is
truthy (it holds some non-whitespace character). -/
def collect (s : List Char) : List RawMatch :=
  ((((collectFam1 s ++ collectFam2 s) ++ collectFam3 s) ++ collectFam4 s) ++
      collectFam5 s).filter (fun m => m.text.any (fun c => !c.isWhitespace))

/-- Stable insertion by start offset, modelling the stable
`matches.sort((a, b) => a.index - b.index)`. -/
def insertMatch (x : RawMatch) : List RawMatch → List RawMatch
  | [] => [x]
  | y :: ys => if y.index < x.index then y :: insertMatch x ys else x :: y :: ys

/-- Stable sort of the collected matches by start offset. -/
def sortMatches : List RawMatch → List RawMatch
  | [] => []
  | x :: xs => insertMatch x (sortMatches xs)

/-- The overlap-removal sweep building `uniqueMatches`: keep a match only when
its start offset is at or beyond the end of the last kept match. -/
def sweepGo : Option Nat → List RawMatch → List RawMatch
  | _, [] => []
  | none, m :: rest => m :: sweepGo (some (m.index + m.text.length)) rest
  | some e, m :: rest =>
    if e ≤ m.index then m :: sweepGo (some (m.index + m.text.length)) rest
    else sweepGo (some e) rest

/-- The scanner: the source's `uniqueMatches` list computed by
`renderVariableName` for a given text. -/
def scan (s : List Char) : List RawMatch := sweepGo none (sortMatches (collect s))

/-- The characters of `s` at offsets `[i, i + n)`. -/
def extract (s : List Char) (i n : Nat) : List Char := (s.drop i).take n

/-- How `renderVariableName` rebuilds its output: the plain text before each
kept match, the match text, and the trailing plain text. -/
def reassemble (s : List Char) : Nat → List RawMatch → List Char
  | i, [] => s.drop i
  | i, m :: rest =>
    ((s.drop i).take (m.index - i) ++ m.text) ++
      reassemble s (m.index + m.text.length) rest

/-! Structural facts about the scanner used by the claims. -/

lemma isIdentStart_isIdentChar {c : Char} (h : isIdentStart c = true) :
    isIdentChar c = true := by
  simp only [isIdentStart, Bool.or_eq_true, decide_eq_true_eq] at h
  simp only [isIdentChar, Bool.or_eq_true, decide_eq_true_eq]
  rcases h with h | h
  · exact Or.inl (Or.inl h)
  · exact Or.inr h

lemma identRun_decomp {l r rest : List Char} (h : identRun l = some (r, rest)) :
    r ++ rest = l ∧ r ≠ [] := by
  unfold identRun at h
  split at h
  · exact absurd h (by simp)
  · rename_i c t
    split at h
    · rename_i hs
      cases h
      refine ⟨List.takeWhile_append_dropWhile _ _, ?_⟩
      rw [List.takeWhile_cons_of_pos (isIdentStart_isIdentChar hs)]
      simp
    · exact absurd h (by simp)

lemma subSuffix_decomp (intros : List Char) (l : List Char) :
    (subSuffix intros l).1 ++ (subSuffix intros l).2 = l := by
  unfold subSuffix
  split
  · simp
  · rename_i c l1
    have htd : l1.takeWhile Char.isDigit ++ l1.dropWhile Char.isDigit = l1 :=
      List.takeWhile_append_dropWhile _ _
    split
    · split
      · simp
      · split
        · rename_i hl2
          rw [hl2, List.append_nil] at htd
          simpa using htd
        · rename_i d l3 hl2
          rw [hl2] at htd
          split
          · simpa [List.append_assoc] using htd
          · simpa using htd
    · simp

lemma dotSegs_decomp : ∀ (fuel : Nat) (l : List Char),
    (dotSegs fuel l).1 ++ (dotSegs fuel l).2 = l := by
  intro fuel
  induction fuel with
  | zero => intro l; simp [dotSegs]
  | succ n ih =>
    intro l
    unfold dotSegs
    split
    · rename_i l1
      split
      · rename_i r rest hIR
        obtain ⟨h1, -⟩ := identRun_decomp hIR
        simp only [List.cons_append, List.cons.injEq, true_and, List.append_assoc]
        rw [ih rest, h1]
      · simp
    · simp

lemma arrowSegs_decomp : ∀ (fuel : Nat) (l : List Char),
    (arrowSegs fuel l).1 ++ (arrowSegs fuel l).2 = l := by
  intro fuel
  induction fuel with
  | zero => intro l; simp [arrowSegs]
  | succ n ih =>
    intro l
    unfold arrowSegs
    split
    · rename_i l1
      split
      · rename_i r rest hIR
        obtain ⟨h1, -⟩ := identRun_decomp hIR
        simp only [List.cons_append, List.cons.injEq, true_and, List.append_assoc]
        rw [ih rest, h1]
      · simp
    · simp

lemma parenOpt_decomp (l : List Char) : (parenOpt l).1 ++ (parenOpt l).2 = l := by
  unfold parenOpt
  split <;> simp

lemma matchDot_decomp {l t r : List Char} (h : matchDot l = some (t, r)) :
    t ++ r = l ∧ t ≠ [] := by
  unfold matchDot at h
  split at h
  · exact absurd h (by simp)
  · rename_i r0 l1 hIR
    obtain ⟨h1, h2⟩ := identRun_decomp hIR
    split at h
    · exact absurd h (by simp)
    · rename_i c sg rest1 hseg
      cases h
      refine ⟨?_, by simp⟩
      have hd := dotSegs_decomp l1.length l1
      rw [hseg] at hd
      simp only at hd
      rcases hpe : parenOpt rest1 with ⟨pn1, pn2⟩
      have hp := parenOpt_decomp rest1
      rw [hpe] at hp
      simp only at hp
      rcases hse : subSuffix ['`'] pn2 with ⟨sf1, sf2⟩
      have hs := subSuffix_decomp ['`'] pn2
      rw [hse] at hs
      simp only at hs
      simp [← h1, ← hd, ← hp, ← hs, List.append_assoc]

lemma matchArrow_decomp {l t r : List Char} (h : matchArrow l = some (t, r)) :
    t ++ r = l ∧ t ≠ [] := by
  unfold matchArrow at h
  split at h
  · exact absurd h (by simp)
  · rename_i r0 l1 hIR
    obtain ⟨h1, h2⟩ := identRun_decomp hIR
    split at h
    · exact absurd h (by simp)
    · rename_i c sg rest1 hseg
      cases h
      refine ⟨?_, by simp⟩
      have hd := arrowSegs_decomp l1.length l1
      rw [hseg] at hd
      simp only at hd
      rcases hse : subSuffix ['`'] rest1 with ⟨sf1, sf2⟩
      have hs := subSuffix_decomp ['`'] rest1
      rw [hse] at hs
      simp only at hs
      simp [← h1, ← hd, ← hs, List.append_assoc]

lemma matchOffset_decomp {l t r : List Char} (h : matchOffset l = some (t, r)) :
    t ++ r = l ∧ t ≠ [] := by
  unfold matchOffset at h
  split at h
  · rename_i l1
    have htd : l1.takeWhile (fun c => c ≠ ')') ++ l1.dropWhile (fun c => c ≠ ')') = l1 :=
      List.takeWhile_append_dropWhile _ _
    split at h
    · exact absurd h (by simp)
    · split at h
      · rename_i l3 hl2
        rw [hl2] at htd
        cases h
        refine ⟨?_, by simp⟩
        rcases hse : subSuffix ['`'] l3 with ⟨sf1, sf2⟩
        have hs := subSuffix_decomp ['`'] l3
        rw [hse] at hs
        simp only at hs
        simp only [List.cons_append, List.cons.injEq, true_and, List.append_assoc]
        rw [hs]
        exact htd
      · exact absurd h (by simp)
  · exact absurd h (by simp)

lemma matchBrace_decomp {l t r : List Char} (h : matchBrace l = some (t, r)) :
    t ++ r = l ∧ t ≠ [] := by
  unfold matchBrace at h
  split at h
  · rename_i l1
    have htd : l1.takeWhile (fun c => c ≠ '}') ++ l1.dropWhile (fun c => c ≠ '}') = l1 :=
      List.takeWhile_append_dropWhile _ _
    split at h
    · exact absurd h (by simp)
    · split at h
      · rename_i l3 hl2
        rw [hl2] at htd
        cases h
        refine ⟨?_, by simp⟩
        rcases hse : subSuffix ['`', '\''] l3 with ⟨sf1, sf2⟩
        have hs := subSuffix_decomp ['`', '\''] l3
        rw [hse] at hs
        simp only at hs
        simp only [List.cons_append, List.cons.injEq, true_and, List.append_assoc]
        rw [hs]
        exact htd
      · exact absurd h (by simp)
  · exact absurd h (by simp)

lemma attempt5_decomp {l t m r : List Char} (h : attempt5 l = some (t, m, r)) :
    t ++ (m ++ r) = l ∧ t ≠ [] := by
  unfold attempt5 at h
  split at h
  · exact absurd h (by simp)
  · rename_i rr l2 hIR
    obtain ⟨h1, h2⟩ := identRun_decomp hIR
    split at h
    · cases h
      exact ⟨by simpa using h1, h2⟩
    · rename_i c l3
      have htd : l3.takeWhile Char.isDigit ++ l3.dropWhile Char.isDigit = l3 :=
        List.takeWhile_append_dropWhile _ _
      split at h
      · split at h
        · cases h
          exact ⟨by simpa using h1, h2⟩
        · split at h
          · rename_i hl4
            rw [hl4, List.append_nil] at htd
            cases h
            refine ⟨?_, by simp⟩
            simp only [List.append_nil]
            rw [htd]
            exact h1
          · rename_i d l5 hl4
            rw [hl4] at htd
            split at h
            · split at h
              · cases h
                refine ⟨?_, by simp⟩
                simp only [List.append_nil, List.nil_append]
                rw [htd]
                exact h1
              · split at h
                · cases h
                  refine ⟨?_, by simp⟩
                  simp only [List.cons_append, List.append_assoc, List.singleton_append,
                    List.nil_append]
                  rw [htd]
                  exact h1
                · cases h
                  exact ⟨by simpa using h1, h2⟩
            · split at h
              · cases h
                refine ⟨?_, by simp⟩
                simp only [List.cons_append, List.append_assoc, List.singleton_append,
                  List.nil_append]
                rw [htd]
                exact h1
              · cases h
                exact ⟨by simpa using h1, h2⟩
      · split at h
        · cases h
          exact ⟨by simpa using h1, h2⟩
        · exact absurd h (by simp)

/-- A matcher is good when each successful attempt decomposes its input and
captures a nonempty token. -/
def GoodMatcher (f : Nat → List Char → Option MatchParts) : Prop :=
  ∀ p l m, f p l = some m → m.pre ++ (m.tok ++ (m.mid ++ m.rest)) = l ∧ m.tok ≠ []

lemma goodMatcher_liftSimple {f : List Char → Option (List Char × List Char)}
    (hf : ∀ l t r, f l = some (t, r) → t ++ r = l ∧ t ≠ []) :
    GoodMatcher (liftSimple f) := by
  intro p l m h
  unfold liftSimple at h
  split at h
  · rename_i t r hfl
    cases h
    obtain ⟨h1, h2⟩ := hf l t r hfl
    simpa using ⟨h1, h2⟩
  · exact absurd h (by simp)

lemma goodMatcher_match5 : GoodMatcher match5 := by
  intro p l m h
  unfold match5 at h
  split at h
  · split at h
    · rename_i t md r ha
      cases h
      obtain ⟨h1, h2⟩ := attempt5_decomp ha
      simpa using ⟨h1, h2⟩
    · split at h
      · rename_i c l1
        split at h
        · split at h
          · rename_i t md r ha
            cases h
            obtain ⟨h1, h2⟩ := attempt5_decomp ha
            refine ⟨?_, h2⟩
            simpa using h1
          · exact absurd h (by simp)
        · exact absurd h (by simp)
      · exact absurd h (by simp)
  · split at h
    · rename_i c l1
      split at h
      · split at h
        · rename_i t md r ha
          cases h
          obtain ⟨h1, h2⟩ := attempt5_decomp ha
          refine ⟨?_, h2⟩
          simpa using h1
        · exact absurd h (by simp)
      · exact absurd h (by simp)
    · exact absurd h (by simp)

lemma firstMatchFrom_spec {f : Nat → List Char → Option MatchParts}
    (hf : GoodMatcher f) (s : List Char) :
    ∀ fuel p q m, firstMatchFrom f s fuel p = some (q, m) →
      m.pre ++ (m.tok ++ (m.mid ++ m.rest)) = s.drop q ∧ m.tok ≠ [] := by
  intro fuel
  induction fuel with
  | zero => intro p q m h; exact absurd h (by simp [firstMatchFrom])
  | succ n ih =>
    intro p q m h
    unfold firstMatchFrom at h
    split at h
    · split at h
      · rename_i mm hm
        cases h
        exact hf _ _ _ hm
      · exact ih _ _ _ h
    · exact absurd h (by simp)

lemma execAll_spec {f : Nat → List Char → Option MatchParts}
    (hf : GoodMatcher f) (s : List Char) :
    ∀ fuel p r, r ∈ execAll f s fuel p →
      r.text ≠ [] ∧ r.text = extract s r.index r.text.length := by
  intro fuel
  induction fuel with
  | zero => intro p r h; exact absurd h (by simp [execAll])
  | succ n ih =>
    intro p r h
    unfold execAll at h
    split at h
    · exact absurd h (by simp)
    · rename_i q m hfirst
      obtain ⟨hdec, htok⟩ := firstMatchFrom_spec hf s _ _ _ _ hfirst
      rcases List.mem_cons.mp h with rfl | h2
      · refine ⟨htok, ?_⟩
        show m.tok = extract s (q + m.pre.length) m.tok.length
        unfold extract
        have hdrop : s.drop (q + m.pre.length) = m.tok ++ (m.mid ++ m.rest) := by
          rw [← List.drop_drop, ← hdec, List.drop_left]
        rw [hdrop, List.take_left]
      · exact ih _ _ h2

lemma collect_spec {s : List Char} {r : RawMatch} (h : r ∈ collect s) :
    r.text ≠ [] ∧ r.text = extract s r.index r.text.length := by
  unfold collect at h
  have h1 := List.mem_filter.mp h |>.1
  simp only [List.mem_append] at h1
  rcases h1 with ((((h2 | h2) | h2) | h2) | h2)
  · exact execAll_spec (goodMatcher_liftSimple (fun l t rr hh => matchDot_decomp hh)) s _ _ _ h2
  · exact execAll_spec (goodMatcher_liftSimple (fun l t rr hh => matchArrow_decomp hh)) s _ _ _ h2
  · exact execAll_spec (goodMatcher_liftSimple (fun l t rr hh => matchOffset_decomp hh)) s _ _ _ h2
  · exact execAll_spec (goodMatcher_liftSimple (fun l t rr hh => matchBrace_decomp hh)) s _ _ _ h2
  · exact execAll_spec goodMatcher_match5 s _ _ _ h2

lemma mem_insertMatch {x a : RawMatch} : ∀ {l : List RawMatch},
    a ∈ insertMatch x l → a = x ∨ a ∈ l := by
  intro l
  induction l with
  | nil => intro h; simpa [insertMatch] using h
  | cons y ys ih =>
    intro h
    unfold insertMatch at h
    split at h
    · rcases List.mem_cons.mp h with rfl | h2
      · exact Or.inr (List.mem_cons_self _ _)
      · rcases ih h2 with h3 | h3
        · exact Or.inl h3
        · exact Or.inr (List.mem_cons_of_mem _ h3)
    · simpa using h

lemma mem_sortMatches {a : RawMatch} : ∀ {l : List RawMatch},
    a ∈ sortMatches l → a ∈ l := by
  intro l
  induction l with
  | nil => intro h; simp [sortMatches] at h
  | cons y ys ih =>
    intro h
    unfold sortMatches at h
    rcases mem_insertMatch h with rfl | h2
    · exact List.mem_cons_self _ _
    · exact List.mem_cons_of_mem _ (ih h2)

lemma sweepGo_sublist : ∀ (e : Option Nat) (l : List RawMatch),
    List.Sublist (sweepGo e l) l := by
  intro e l
  induction l generalizing e with
  | nil => cases e <;> simp [sweepGo]
  | cons m rest ih =>
    cases e with
    | none => exact List.Sublist.cons₂ m (ih _)
    | some b =>
      unfold sweepGo
      split
      · exact List.Sublist.cons₂ m (ih _)
      · exact List.Sublist.cons m (ih _)

/-- The ordering the sweep establishes: one kept range ends at or before the
next begins. -/
def RangeLe (a b : RawMatch) : Prop := a.index + a.text.length ≤ b.index

lemma sweepGo_head_bound : ∀ (l : List RawMatch) (e : Nat) {a : RawMatch},
    (sweepGo (some e) l).head? = some a → e ≤ a.index := by
  intro l
  induction l with
  | nil => intro e a h; simp [sweepGo] at h
  | cons m rest ih =>
    intro e a h
    unfold sweepGo at h
    split at h
    · rename_i he
      simp only [List.head?_cons, Option.some.injEq] at h
      exact h ▸ he
    · exact ih _ h

lemma sweepGo_chain : ∀ (l : List RawMatch) (e : Option Nat),
    List.Chain' RangeLe (sweepGo e l) := by
  intro l
  induction l with
  | nil => intro e; cases e <;> simp [sweepGo]
  | cons m rest ih =>
    intro e
    have hcons : List.Chain' RangeLe (m :: sweepGo (some (m.index + m.text.length)) rest) := by
      apply List.chain'_cons'.mpr
      refine ⟨?_, ih _⟩
      intro y hy
      exact sweepGo_head_bound rest _ hy
    cases e with
    | none => exact hcons
    | some b =>
      unfold sweepGo
      split
      · exact hcons
      · exact ih _

lemma reassemble_eq (s : List Char) : ∀ (toks : List RawMatch) (i : Nat),
    (∀ m ∈ toks, m.text = extract s m.index m.text.length) →
    List.Chain' RangeLe toks →
    (∀ a, toks.head? = some a → i ≤ a.index) →
    reassemble s i toks = s.drop i := by
  intro toks
  induction toks with
  | nil => intro i _ _ _; rfl
  | cons m rest ih =>
    intro i hspec hchain hhead
    have hi : i ≤ m.index := hhead m rfl
    have hm : m.text = extract s m.index m.text.length := hspec m (List.mem_cons_self _ _)
    have hrec : reassemble s (m.index + m.text.length) rest = s.drop (m.index + m.text.length) := by
      apply ih
      · intro x hx; exact hspec x (List.mem_cons_of_mem _ hx)
      · exact (List.chain'_cons'.mp hchain).2
      · intro a ha
        exact (List.chain'_cons'.mp hchain).1 a ha
    show ((s.drop i).take (m.index - i) ++ m.text) ++ reassemble s (m.index + m.text.length) rest = s.drop i
    rw [hrec]
    have hsplit1 : s.drop i = (s.drop i).take (m.index - i) ++ (s.drop i).drop (m.index - i) :=
      (List.take_append_drop _ _).symm
    have hdd1 : (s.drop i).drop (m.index - i) = s.drop m.index := by
      rw [List.drop_drop, Nat.add_sub_cancel' hi]
    have hsplit2 : s.drop m.index =
        (s.drop m.index).take m.text.length ++ (s.drop m.index).drop m.text.length :=
      (List.take_append_drop _ _).symm
    have hdd2 : (s.drop m.index).drop m.text.length = s.drop (m.index + m.text.length) := by
      rw [List.drop_drop]
    unfold extract at hm
    conv_rhs => rw [hsplit1, hdd1, hsplit2, hdd2]
    rw [List.append_assoc, ← hm]

/-- Claim C1: for every input string the scanner's kept-match list is
well-formed (each token's text is exactly the input's characters at its
range, tokens are nonempty, ranges are strictly increasing and pairwise
non-overlapping), and concatenating the plain-text gap before each token,
the token texts, and the trailing plain text reproduces the input exactly. -/
theorem scan_partition (s : List Char) :
    (∀ m ∈ scan s, m.text ≠ [] ∧ m.text = extract s m.index m.text.length) ∧
    List.Pairwise
      (fun a b => a.index + a.text.length ≤ b.index ∧ a.index < b.index) (scan s) ∧
    reassemble s 0 (scan s) = s := by
  have hmem : ∀ m ∈ scan s, m.text ≠ [] ∧ m.text = extract s m.index m.text.length := by
    intro m hm
    have h1 : m ∈ sortMatches (collect s) :=
      (sweepGo_sublist none (sortMatches (collect s))).mem hm
    exact collect_spec (mem_sortMatches h1)
  have hchain : List.Chain' RangeLe (scan s) := sweepGo_chain _ _
  refine ⟨hmem, ?_, ?_⟩
  · haveI : IsTrans RawMatch RangeLe := ⟨by
      intro a b c hab hbc
      exact Nat.le_trans hab (Nat.le_trans (Nat.le_add_right _ _) hbc)⟩
    have hpw : List.Pairwise RangeLe (scan s) := List.chain'_iff_pairwise.mp hchain
    refine hpw.imp_of_mem ?_
    intro a b ha hb hr
    have hr2 : a.index + a.text.length ≤ b.index := hr
    have hne : a.text ≠ [] := (hmem a ha).1
    have hlen : 0 < a.text.length := List.length_pos.mpr hne
    exact ⟨hr2, by omega⟩
  · apply reassemble_eq
    · intro m hm; exact (hmem m hm).2
    · exact hchain
    · intro a _; exact Nat.zero_le _

/-! Tie-breaking at equal start offsets (claim C6). -/

lemma sweepGo_skip {b : RawMatch} : ∀ (l2 : List RawMatch) (l3 : List RawMatch) (e : Nat),
    b.index < e →
    List.Sublist (sweepGo (some e) (l2 ++ b :: l3)) (l2 ++ l3) := by
  intro l2
  induction l2 with
  | nil =>
    intro l3 e hb
    show List.Sublist (sweepGo (some e) (b :: l3)) l3
    simp only [sweepGo]
    rw [if_neg (by omega)]
    exact sweepGo_sublist _ _
  | cons y l2x ih =>
    intro l3 e hb
    show List.Sublist (sweepGo (some e) (y :: (l2x ++ b :: l3))) (y :: (l2x ++ l3))
    simp only [sweepGo]
    split
    · rename_i hy
      exact List.Sublist.cons₂ y (ih l3 _ (by omega))
    · exact List.Sublist.cons y (ih l3 e hb)

lemma sweepGo_tie {a b : RawMatch} (hidx : a.index = b.index) (ha : a.text ≠ []) :
    ∀ (l1 : List RawMatch) (e : Option Nat) (l2 l3 : List RawMatch),
    List.Sublist (sweepGo e (l1 ++ a :: (l2 ++ b :: l3))) (l1 ++ a :: (l2 ++ l3)) := by
  have halen : 0 < a.text.length := List.length_pos.mpr ha
  intro l1
  induction l1 with
  | nil =>
    intro e l2 l3
    cases e with
    | none =>
      show List.Sublist (a :: sweepGo (some (a.index + a.text.length)) (l2 ++ b :: l3))
        (a :: (l2 ++ l3))
      exact List.Sublist.cons₂ a (sweepGo_skip l2 l3 _ (by omega))
    | some e0 =>
      show List.Sublist (sweepGo (some e0) (a :: (l2 ++ b :: l3))) (a :: (l2 ++ l3))
      simp only [sweepGo]
      split
      · exact List.Sublist.cons₂ a (sweepGo_skip l2 l3 _ (by omega))
      · rename_i hno
        exact List.Sublist.cons a (sweepGo_skip l2 l3 e0 (by omega))
  | cons y l1x ih =>
    intro e l2 l3
    cases e with
    | none =>
      show List.Sublist (y :: sweepGo (some (y.index + y.text.length))
        (l1x ++ a :: (l2 ++ b :: l3))) (y :: (l1x ++ a :: (l2 ++ l3)))
      exact List.Sublist.cons₂ y (ih _ l2 l3)
    | some e0 =>
      show List.Sublist (sweepGo (some e0) (y :: (l1x ++ a :: (l2 ++ b :: l3))))
        (y :: (l1x ++ a :: (l2 ++ l3)))
      simp only [sweepGo]
      split
      · exact List.Sublist.cons₂ y (ih _ l2 l3)
      · exact List.Sublist.cons y (ih _ l2 l3)

/-- Claim C6 (amended): when two raw matches start at the same offset, the
sweep always discards the one that stands later in the sorted collection (for
equal offsets the stable sort keeps the lower-numbered family first, so the
higher-numbered family's match is the one discarded): the kept-token list is
a sublist of the sorted match list with the later tied match removed.  The
earlier tied match itself is kept only when it does not overlap a previously
kept match. -/
theorem tie_discards_later_match (s : List Char) (l1 l2 l3 : List RawMatch)
    (a b : RawMatch) (hsort : sortMatches (collect s) = l1 ++ a :: (l2 ++ b :: l3))
    (hidx : a.index = b.index) (ha : a.text ≠ []) :
    List.Sublist (scan s) (l1 ++ a :: (l2 ++ l3)) := by
  unfold scan
  rw [hsort]
  exact sweepGo_tie hidx ha l1 none l2 l3

set_option maxRecDepth 4000 in
/-- Witness for C6 (amended) at the text `"{a->b}"`: families 2 and 5 tie at
offset 1; the sweep output is a sublist of the sorted matches with the
family-5 match `"a"` at offset 1 removed. -/
theorem tie_discards_later_match_witness :
    List.Sublist (scan (("{a->b}").toList))
      ([⟨0, ("{a->b}").toList⟩] ++ (⟨1, ("a->b").toList⟩ : RawMatch) ::
        ([] ++ [⟨4, ("b").toList⟩])) :=
  tie_discards_later_match (("{a->b}").toList) [⟨0, ("{a->b}").toList⟩] []
    [⟨4, ("b").toList⟩] ⟨1, ("a->b").toList⟩ ⟨1, ("a").toList⟩
    (by decide) (by decide) (by decide)

set_option maxRecDepth 4000 in
/-- Claim C6 counterexample: in `"{a->b}"` pattern families 2 and 5 both
produce a raw match starting at offset 1, yet the sweep keeps neither of
them - in particular it does not keep the lower-numbered family's match
`"a->b"` (the family-4 match `"{a->b}"` kept at offset 0 overlaps both), so
the sweep does not always keep the lower-numbered family's match of a tie. -/
theorem tie_break_cex :
    collectFam2 (("{a->b}").toList) = [⟨1, ("a->b").toList⟩] ∧
    collectFam5 (("{a->b}").toList) = [⟨1, ("a").toList⟩, ⟨4, ("b").toList⟩] ∧
    scan (("{a->b}").toList) = [⟨0, ("{a->b}").toList⟩] ∧
    (⟨1, ("a->b").toList⟩ : RawMatch) ∉ scan (("{a->b}").toList) := by decide

set_option maxRecDepth 4000 in
/-- Claim C4 counterexample: scanning the scenario text does not produce
exactly two tokens - the word `"returned"` is tokenized by pattern family 5
(bare identifier), giving three tokens. -/
theorem scan_scenario1_cex :
    (scan (("obj.method() returned offset(x+1)`123a").toList)).length ≠ 2 ∧
    (⟨13, ("returned").toList⟩ : RawMatch) ∈
      scan (("obj.method() returned offset(x+1)`123a").toList) := by decide

set_option maxRecDepth 4000 in
/-- Claim C4 (amended): scanning the scenario text produces exactly three
tokens, `"obj.method()"` at offset 0, `"returned"` at offset 13 (a bare
identifier match) and `"offset(x+1)`123a"` at offset 22, with the two spaces
left as plain text between them. -/
theorem scan_scenario1_tokens :
    scan (("obj.method() returned offset(x+1)`123a").toList) =
      [⟨0, ("obj.method()").toList⟩, ⟨13, ("returned").toList⟩,
       ⟨22, ("offset(x+1)`123a").toList⟩] := by decide

set_option maxRecDepth 4000 in
/-- Claim C5 counterexample: in `"a b c"` the character `b` at offset 2 is an
identifier run bounded by non-identifier characters (spaces) on both sides,
no family 1-4 match exists anywhere in the text, and yet no token starts at
offset 2: the bare identifier `b` is not emitted. -/
theorem bare_identifier_cex :
    (("a b c").toList)[2]? = some 'b' ∧ isIdentStart 'b' = true ∧
    (("a b c").toList)[1]? = some ' ' ∧ (("a b c").toList)[3]? = some ' ' ∧
    isIdentChar ' ' = false ∧
    collectFam1 (("a b c").toList) = [] ∧ collectFam2 (("a b c").toList) = [] ∧
    collectFam3 (("a b c").toList) = [] ∧ collectFam4 (("a b c").toList) = [] ∧
    ∀ m ∈ scan (("a b c").toList), m.index ≠ 2 := by decide

set_option maxRecDepth 4000 in
/-- Claim C5 (amended): a bare-identifier run is emitted only when the
`exec` scan reaches its boundary: the single non-identifier character before
a run can already have been consumed as the trailing boundary (group 3) of
the previous bare-identifier match, in which case the run is skipped.  In
`"a b c"` only `"a"` at offset 0 and `"c"` at offset 4 become tokens; `"b"`
is skipped because the space at offset 1 was consumed by the match for
`"a"`. -/
theorem bare_identifier_amended :
    scan (("a b c").toList) = [⟨0, ("a").toList⟩, ⟨4, ("c").toList⟩] := by decide

/-! The step-state projection and the temporal navigation engine of
details.tsx. -/

/-- A raw state value as the webview receives it: a string, an integer or
boolean primitive, or an object optionally carrying a `text` field (SARIF's
multiformatMessageString). -/
inductive RawValue where
  | str (s : String)
  | num (n : Int)
  | boolv (b : Bool)
  | obj (text : Option String)
deriving DecidableEq

/-- JavaScript's `typeof value === 'object' && value?.text ? value.text :
String(value)`: the `text` field when the value is an object whose `text`
field is truthy (present and non-empty), else the canonical string form
(`String(value)`, which is `"[object Object]"` for any object). -/
def displayValue : RawValue → String
  | .str s => s
  | .num n => toString n
  | .boolv b => if b then ("true") else ("false")
  | .obj (some t) => if t ≠ "" then t else ("[object Object]")
  | .obj none => ("[object Object]")

/-- ECMAScript `GetSubstitution` applied to a string replacement argument of
`String.prototype.replace` with the zero-capture-group regex `/\{expr\}/g`:
in the replacement text, `$$` stands for `$`, `$&` for the matched substring,
`` $` `` for the part of the source before the match and `$'` for the part
after it; any other `$` (including `$n`, since the regex has no capture
groups, and `$<`, since it has no named groups) is literal. -/
def substTemplate (before matched after : List Char) : List Char → List Char
  | [] => []
  | c0 :: rest =>
    if c0 = '$' then
      match rest with
      | [] => [c0]
      | c1 :: rest1 =>
        if c1 = '$' then c0 :: substTemplate before matched after rest1
        else if c1 = '&' then matched ++ substTemplate before matched after rest1
        else if c1 = '`' then before ++ substTemplate before matched after rest1
        else if c1 = '\'' then after ++ substTemplate before matched after rest1
        else c0 :: (c1 :: substTemplate before matched after rest1)
    else c0 :: substTemplate before matched after rest

/-- The six characters the regex `/\{expr\}/` matches. -/
def exprPlaceholder : List Char := ['{', 'e', 'x', 'p', 'r', '}']

/-- `value.replace(/\{expr\}/g, `(${key})`)` on the character list: at every
literal occurrence of the six-character placeholder, the replacement string
(the template `(` + key + `)`) is expanded by `GetSubstitution` at the
occurrence's position in the original source, scanning left to right and
continuing after each match.  Fuel-based; fuel `l.length` is always enough
since every step consumes at least one character. -/
def replaceExprGo (template source : List Char) : Nat → Nat → List Char → List Char
  | _, _, [] => []
  | 0, _, l => l
  | fuel + 1, p, c0 :: rest =>
    if c0 = '{' ∧ rest.take 5 = ['e', 'x', 'p', 'r', '}'] then
      substTemplate (source.take p) exprPlaceholder (source.drop (p + 6)) template ++
        replaceExprGo template source fuel (p + 6) (rest.drop 5)
    else c0 :: replaceExprGo template source fuel (p + 1) rest

/-- The `{expr}` substitution on strings: the source's
`.replace(/\{expr\}/g, `(${key})`)`, with the template-literal argument
evaluated to the string `(` + key + `)` first and each match substituted
through `GetSubstitution`. -/
def replaceExpr (key s : String) : String :=
  String.mk
    (replaceExprGo ('(' :: (key.toList ++ [')'])) s.toList s.toList.length 0 s.toList)

/-- The spec's words for the substitution, for comparison with the program's
`replaceExpr`: every literal `{expr}` replaced by `(` + key + `)` inserted
verbatim (no `$`-substitution). -/
def literalReplaceGo (key : List Char) : Nat → List Char → List Char
  | _, [] => []
  | 0, l => l
  | fuel + 1, c0 :: rest =>
    if c0 = '{' ∧ rest.take 5 = ['e', 'x', 'p', 'r', '}'] then
      '(' :: (key ++ (')' :: literalReplaceGo key fuel (rest.drop 5)))
    else c0 :: literalReplaceGo key fuel rest

/-- The spec's verbatim-insertion substitution on strings. -/
def literalReplaceExpr (key s : String) : String :=
  String.mk (literalReplaceGo key.toList s.toList.length s.toList)

/-- One analysis step (a `ThreadFlowLocation`): only its `state` matters
here.  A missing state dictionary is `none`; a present dictionary is its
key-value list in insertion order. -/
structure Step where
  state : Option (List (String × RawValue))
deriving DecidableEq

/-- The object lookup `step.state[variable]`. -/
def stateLookup (st : List (String × RawValue)) (varName : String) : Option RawValue :=
  match st.find? (fun kv => kv.1 == varName) with
  | some kv => some kv.2
  | none => none

/-- `getVariableValue(step, variable)` of details.tsx: `null` when the step
has no state dictionary or the variable is absent; otherwise the display
value with every `{expr}` replaced by `(variable)`. -/
def getVariableValue (step : Step) (varName : String) : Option String :=
  match step.state with
  | none => none
  | some st =>
    match stateLookup st varName with
    | none => none
    | some v => some (replaceExpr varName (displayValue v))

/-- `hasValidState(step)`: the step has a state dictionary with at least one
key. -/
def hasValidState (step : Step) : Bool :=
  match step.state with
  | none => false
  | some st => st ≠ []

/-- JavaScript array indexing `tfls[i]` with an `Int` index: `undefined`
(here `none`) when negative or out of range. -/
def jsGet (tfls : List Step) (i : Int) : Option Step :=
  if 0 ≤ i then tfls[i.toNat]? else none

/-- Whether the loop body of `findPreviouslyChanged` / `findNextChanged`
returns at index `i`: the step exists, has valid state, defines the
variable, and the projected value differs from `curVal`. -/
def changedCheck (tfls : List Step) (varName curVal : String) (i : Nat) : Bool :=
  match tfls[i]? with
  | none => false
  | some step =>
    hasValidState step &&
      match getVariableValue step varName with
      | none => false
      | some x => x != curVal

/-- The backward loop of `findPreviouslyChanged`, scanning indices `i` down
to 0. -/
def scanBackward (tfls : List Step) (varName curVal : String) : Nat → Option Nat
  | 0 => if changedCheck tfls varName curVal 0 then some 0 else none
  | i + 1 =>
    if changedCheck tfls varName curVal (i + 1) then some (i + 1)
    else scanBackward tfls varName curVal i

/-- `findPreviouslyChanged` of details.tsx.  The `Int` parameter is the value
`getCurrentStepIndex()` returns (`-1` when nothing is selected).  The
`Except` error marks the one place the JavaScript would throw: reading
`.state` of `undefined` when the index is positive but out of range
(unreachable for indices `findIndex` produces). -/
def findPreviouslyChanged (tfls : List Step) (varName : String)
    (currentStepIndex : Int) : Except Unit (Option Nat) :=
  if currentStepIndex ≤ 0 then .ok none
  else
    match jsGet tfls currentStepIndex with
    | none => .error ()
    | some currentStep =>
      match getVariableValue currentStep varName with
      | none => .ok none
      | some currentValue =>
        .ok (scanBackward tfls varName currentValue (currentStepIndex.toNat - 1))

/-- The forward loop of `findNextChanged`, scanning indices `i` up to the
end (fuel-based; fuel `tfls.length` is always enough). -/
def scanForwardGo (tfls : List Step) (varName curVal : String) : Nat → Nat → Option Nat
  | _, 0 => none
  | i, fuel + 1 =>
    if i < tfls.length then
      if changedCheck tfls varName curVal i then some i
      else scanForwardGo tfls varName curVal (i + 1) fuel
    else none

/-- `findNextChanged` of details.tsx, with the current step index supplied
like in `findPreviouslyChanged`. -/
def findNextChanged (tfls : List Step) (varName : String)
    (currentStepIndex : Int) : Except Unit (Option Nat) :=
  if currentStepIndex = -1 ∨ currentStepIndex ≥ (tfls.length : Int) - 1 then .ok none
  else
    match jsGet tfls currentStepIndex with
    | none => .error ()
    | some currentStep =>
      match getVariableValue currentStep varName with
      | none => .ok none
      | some currentValue =>
        .ok (scanForwardGo tfls varName currentValue (currentStepIndex.toNat + 1)
          tfls.length)

/-- Whether `findInitialized`'s loop returns at index `i`: the step has
valid state and defines the variable. -/
def definedCheck (tfls : List Step) (varName : String) (i : Nat) : Bool :=
  match tfls[i]? with
  | none => false
  | some step => hasValidState step && (getVariableValue step varName).isSome

/-- The forward loop of `findInitialized` (fuel-based). -/
def fiScanGo (tfls : List Step) (varName : String) : Nat → Nat → Option Nat
  | _, 0 => none
  | i, fuel + 1 =>
    if i < tfls.length then
      if definedCheck tfls varName i then some i
      else fiScanGo tfls varName (i + 1) fuel
    else none

/-- `findInitialized` of details.tsx: the first step, skipping empty-state
steps, where the variable has a defined value. -/
def findInitialized (tfls : List Step) (varName : String) : Option Nat :=
  fiScanGo tfls varName 0 (tfls.length + 1)

/-- Whether `findLastChanged`'s loop returns `i + 1` at index `i`: the value
at `i` is defined and differs from the final value, and the target step
`i + 1` exists and has valid state. -/
def lastChangedCheck (tfls : List Step) (varName finalVal : String) (i : Nat) : Bool :=
  changedCheck tfls varName finalVal i &&
    (decide (i + 1 < tfls.length) &&
      match tfls[i + 1]? with
      | none => false
      | some t => hasValidState t)

/-- The backward loop of `findLastChanged`, scanning indices `i` down to 0
and answering `index + 1`. -/
def flScanGo (tfls : List Step) (varName finalVal : String) : Nat → Option Nat
  | 0 => if lastChangedCheck tfls varName finalVal 0 then some 1 else none
  | i + 1 =>
    if lastChangedCheck tfls varName finalVal (i + 1) then some (i + 2)
    else flScanGo tfls varName finalVal i

/-- `findLastChanged` of details.tsx: scan backward from the second-to-last
step for the most recent change relative to the final step's value. -/
def findLastChanged (tfls : List Step) (varName : String) : Option Nat :=
  if tfls.length = 0 then none
  else
    match tfls[tfls.length - 1]? with
    | none => none
    | some finalStep =>
      if hasValidState finalStep then
        match getVariableValue finalStep varName with
        | none => none
        | some finalValue =>
          if 2 ≤ tfls.length then flScanGo tfls varName finalValue (tfls.length - 2)
          else none
      else none

/-- A normalized table row source, statesTableStore.ts's `StateEntry`. -/
structure StateEntry where
  key : String
  value : String
deriving DecidableEq

/-- The per-entry value processing of the `statesTableStore` computed
property (identical to `getVariableValue`'s): the display form with
`{expr}` replaced by the parenthesized key. -/
def processedValue (key : String) (v : RawValue) : String :=
  replaceExpr key (displayValue v)

/-- The `statesTableStore` computed property's projection of one state
dictionary to the table's `StateEntry` list, in insertion order. -/
def projectState (st : List (String × RawValue)) : List StateEntry :=
  st.map (fun kv => ⟨kv.1, processedValue kv.1 kv.2⟩)

/-! Specifications of the navigation loops. -/

/-- The property the difference loops test at index `j`, as a proposition:
the step exists, has non-empty state, defines the variable, and its
projected value differs from `curVal`. -/
def changedAt (tfls : List Step) (varName curVal : String) (j : Nat) : Prop :=
  ∃ step, tfls[j]? = some step ∧ hasValidState step = true ∧
    ∃ x, getVariableValue step varName = some x ∧ x ≠ curVal

lemma changedCheck_iff {tfls : List Step} {vn cv : String} {j : Nat} :
    changedCheck tfls vn cv j = true ↔ changedAt tfls vn cv j := by
  unfold changedCheck changedAt
  cases hst : tfls[j]? with
  | none => simp
  | some step =>
    cases hgv : getVariableValue step vn with
    | none => simp [hgv]
    | some x => simp [hgv, Bool.and_eq_true, bne_iff_ne]

lemma scanBackward_eq_some {tfls : List Step} {vn cv : String} :
    ∀ {i k : Nat}, scanBackward tfls vn cv i = some k →
      k ≤ i ∧ changedCheck tfls vn cv k = true ∧
        ∀ j, k < j → j ≤ i → changedCheck tfls vn cv j = false := by
  intro i
  induction i with
  | zero =>
    intro k h
    unfold scanBackward at h
    split at h
    · rename_i hc
      cases h
      exact ⟨Nat.le_refl _, hc, fun j hj1 hj2 => by omega⟩
    · exact absurd h (by simp)
  | succ n ih =>
    intro k h
    unfold scanBackward at h
    split at h
    · rename_i hc
      cases h
      exact ⟨Nat.le_refl _, hc, fun j hj1 hj2 => by omega⟩
    · rename_i hc
      obtain ⟨h1, h2, h3⟩ := ih h
      refine ⟨by omega, h2, ?_⟩
      intro j hj1 hj2
      rcases Nat.lt_or_ge j (n + 1) with hlt | hge
      · exact h3 j hj1 (by omega)
      · have hj : j = n + 1 := by omega
        subst hj
        simpa using hc

lemma scanBackward_eq_none {tfls : List Step} {vn cv : String} :
    ∀ {i : Nat}, scanBackward tfls vn cv i = none →
      ∀ j, j ≤ i → changedCheck tfls vn cv j = false := by
  intro i
  induction i with
  | zero =>
    intro h j hj
    unfold scanBackward at h
    split at h
    · exact absurd h (by simp)
    · rename_i hc
      have hj0 : j = 0 := by omega
      subst hj0
      simpa using hc
  | succ n ih =>
    intro h j hj
    unfold scanBackward at h
    split at h
    · exact absurd h (by simp)
    · rename_i hc
      rcases Nat.lt_or_ge j (n + 1) with hlt | hge
      · exact ih h j (by omega)
      · have hj2 : j = n + 1 := by omega
        subst hj2
        simpa using hc

lemma scanForwardGo_eq_some {tfls : List Step} {vn cv : String} :
    ∀ {fuel i k : Nat}, scanForwardGo tfls vn cv i fuel = some k →
      changedCheck tfls vn cv k = true := by
  intro fuel
  induction fuel with
  | zero => intro i k h; exact absurd h (by simp [scanForwardGo])
  | succ n ih =>
    intro i k h
    unfold scanForwardGo at h
    split at h
    · split at h
      · rename_i hc
        cases h
        exact hc
      · exact ih h
    · exact absurd h (by simp)

lemma findPreviouslyChanged_eq {tfls : List Step} {vn : String} {cur : Int}
    {step : Step} {cv : String} (h0 : ¬ cur ≤ 0) (hjs : jsGet tfls cur = some step)
    (hgv : getVariableValue step vn = some cv) :
    findPreviouslyChanged tfls vn cur =
      .ok (scanBackward tfls vn cv (cur.toNat - 1)) := by
  simp [findPreviouslyChanged, h0, hjs, hgv]

/-- The scenario timeline of claim C2: values of `ptr` by index are
`"0x0"`, (empty state), `"0x0"`, `"0x4"`. -/
def scenarioTimeline : List Step :=
  [⟨some [(("ptr"), RawValue.str ("0x0"))]⟩, ⟨some []⟩,
   ⟨some [(("ptr"), RawValue.str ("0x0"))]⟩, ⟨some [(("ptr"), RawValue.str ("0x4"))]⟩]

/-- Claim C2: `findPreviouslyChanged` returns not-found when the current
index is 0 or invalid (non-positive, as `findIndex` yields `-1`) or the
variable is undefined at the current step; otherwise it returns the greatest
index below the current one whose step has non-empty state, defines the
variable, and holds a value differing from the current one (string
equality); concretely, on the scenario timeline
`findPreviouslyChanged('ptr', 3)` returns 2. -/
theorem findPreviouslyChanged_spec (tfls : List Step) (varName : String) (cur : Int) :
    (cur ≤ 0 → findPreviouslyChanged tfls varName cur = .ok none) ∧
    (∀ step, jsGet tfls cur = some step → getVariableValue step varName = none →
      findPreviouslyChanged tfls varName cur = .ok none) ∧
    (∀ step curVal, 0 < cur → jsGet tfls cur = some step →
      getVariableValue step varName = some curVal →
      (∀ k, findPreviouslyChanged tfls varName cur = .ok (some k) →
        k < cur.toNat ∧ changedAt tfls varName curVal k ∧
          ∀ j, k < j → j < cur.toNat → ¬ changedAt tfls varName curVal j) ∧
      (findPreviouslyChanged tfls varName cur = .ok none →
        ∀ j, j < cur.toNat → ¬ changedAt tfls varName curVal j)) ∧
    findPreviouslyChanged scenarioTimeline ("ptr") 3 = .ok (some 2) := by
  refine ⟨?_, ?_, ?_, rfl⟩
  · intro h0
    unfold findPreviouslyChanged
    rw [if_pos h0]
  · intro step hjs hgv
    by_cases h0 : cur ≤ 0
    · unfold findPreviouslyChanged
      rw [if_pos h0]
    · simp [findPreviouslyChanged, h0, hjs, hgv]
  · intro step curVal h0 hjs hgv
    have heq := findPreviouslyChanged_eq (by omega) hjs hgv
    constructor
    · intro k hk
      rw [heq] at hk
      have hsb : scanBackward tfls varName curVal (cur.toNat - 1) = some k := by
        simpa using hk
      obtain ⟨h1, h2, h3⟩ := scanBackward_eq_some hsb
      refine ⟨by omega, changedCheck_iff.mp h2, ?_⟩
      intro j hj1 hj2 hcj
      have hfalse := h3 j hj1 (by omega)
      rw [changedCheck_iff.mpr hcj] at hfalse
      exact absurd hfalse (by simp)
    · intro hnone j hj hcj
      rw [heq] at hnone
      have hsb : scanBackward tfls varName curVal (cur.toNat - 1) = none := by
        simpa using hnone
      have hfalse := scanBackward_eq_none hsb j (by omega)
      rw [changedCheck_iff.mpr hcj] at hfalse
      exact absurd hfalse (by simp)

/-- Witness for C2: the theorem applied at the scenario timeline with
current index 3 characterizes the returned index 2. -/
theorem findPreviouslyChanged_spec_witness :
    2 < (3 : Int).toNat ∧ changedAt scenarioTimeline ("ptr") ("0x4") 2 ∧
      ∀ j, 2 < j → j < (3 : Int).toNat →
        ¬ changedAt scenarioTimeline ("ptr") ("0x4") j :=
  ((findPreviouslyChanged_spec scenarioTimeline ("ptr") 3).2.2.1
      (Step.mk (some [(("ptr"), RawValue.str ("0x4"))])) ("0x4")
      (by decide) rfl rfl).1 2 rfl

/-- The property `findLastChanged`'s loop tests at index `i`: the value at
`i` is defined and differs from the final value, and the target step `i + 1`
exists and has non-empty state. -/
def lastChangedAt (tfls : List Step) (varName finalVal : String) (i : Nat) : Prop :=
  changedAt tfls varName finalVal i ∧ i + 1 < tfls.length ∧
    ∃ t, tfls[i + 1]? = some t ∧ hasValidState t = true

lemma lastChangedCheck_iff {tfls : List Step} {vn fv : String} {i : Nat} :
    lastChangedCheck tfls vn fv i = true ↔ lastChangedAt tfls vn fv i := by
  unfold lastChangedCheck lastChangedAt
  cases ht : tfls[i + 1]? with
  | none => simp [Bool.and_eq_true, changedCheck_iff]
  | some t => simp [Bool.and_eq_true, changedCheck_iff, decide_eq_true_eq, and_assoc]

lemma flScanGo_eq_some {tfls : List Step} {vn fv : String} :
    ∀ {i r : Nat}, flScanGo tfls vn fv i = some r →
      ∃ k, r = k + 1 ∧ k ≤ i ∧ lastChangedCheck tfls vn fv k = true ∧
        ∀ j, k < j → j ≤ i → lastChangedCheck tfls vn fv j = false := by
  intro i
  induction i with
  | zero =>
    intro r h
    unfold flScanGo at h
    split at h
    · rename_i hc
      cases h
      exact ⟨0, rfl, Nat.le_refl _, hc, fun j hj1 hj2 => by omega⟩
    · exact absurd h (by simp)
  | succ n ih =>
    intro r h
    unfold flScanGo at h
    split at h
    · rename_i hc
      cases h
      exact ⟨n + 1, rfl, Nat.le_refl _, hc, fun j hj1 hj2 => by omega⟩
    · rename_i hc
      obtain ⟨k, hk1, hk2, hk3, hk4⟩ := ih h
      refine ⟨k, hk1, by omega, hk3, ?_⟩
      intro j hj1 hj2
      rcases Nat.lt_or_ge j (n + 1) with hlt | hge
      · exact hk4 j hj1 (by omega)
      · have hj : j = n + 1 := by omega
        subst hj
        simpa using hc

lemma flScanGo_eq_none {tfls : List Step} {vn fv : String} :
    ∀ {i : Nat}, flScanGo tfls vn fv i = none →
      ∀ j, j ≤ i → lastChangedCheck tfls vn fv j = false := by
  intro i
  induction i with
  | zero =>
    intro h j hj
    unfold flScanGo at h
    split at h
    · exact absurd h (by simp)
    · rename_i hc
      have hj0 : j = 0 := by omega
      subst hj0
      simpa using hc
  | succ n ih =>
    intro h j hj
    unfold flScanGo at h
    split at h
    · exact absurd h (by simp)
    · rename_i hc
      rcases Nat.lt_or_ge j (n + 1) with hlt | hge
      · exact ih h j (by omega)
      · have hj2 : j = n + 1 := by omega
        subst hj2
        simpa using hc

lemma findLastChanged_eq {tfls : List Step} {vn : String} {lastStep : Step}
    {fv : String} (hlen : 2 ≤ tfls.length)
    (hlast : tfls[tfls.length - 1]? = some lastStep)
    (hvs : hasValidState lastStep = true)
    (hgv : getVariableValue lastStep vn = some fv) :
    findLastChanged tfls vn = flScanGo tfls vn fv (tfls.length - 2) := by
  have hl0 : ¬ tfls.length = 0 := by omega
  simp [findLastChanged, hl0, hlast, hvs, hgv, hlen]

/-- The scenario timeline of claim C3's scenario 3: the variable `x` never
changes across the timeline. -/
def neverChangedTimeline : List Step :=
  [⟨some [(("x"), RawValue.str ("7"))]⟩, ⟨some []⟩,
   ⟨some [(("x"), RawValue.str ("7"))]⟩]

/-- A two-step timeline where `x` changes at step 1, used by C3's witness. -/
def twoStepTimeline : List Step :=
  [⟨some [(("x"), RawValue.str ("0"))]⟩, ⟨some [(("x"), RawValue.str ("1"))]⟩]

/-- Claim C3: `findLastChanged` returns not-found when the final step has
empty state or the variable is undefined there; otherwise it scans backward
from the second-to-last index skipping empty-state and undefined-variable
steps, and at the greatest index whose value differs from the final value it
returns that index + 1 provided the step at that target has non-empty state
(continuing further backward when it does not); if no such index exists the
result is not-found - in particular a variable that never changes yields
not-found. -/
theorem findLastChanged_spec (tfls : List Step) (varName : String) :
    (tfls.length = 0 → findLastChanged tfls varName = none) ∧
    (∀ lastStep, tfls[tfls.length - 1]? = some lastStep →
      (hasValidState lastStep = false → findLastChanged tfls varName = none) ∧
      (getVariableValue lastStep varName = none →
        findLastChanged tfls varName = none) ∧
      (∀ finalVal, hasValidState lastStep = true →
        getVariableValue lastStep varName = some finalVal →
        (∀ r, findLastChanged tfls varName = some r →
          ∃ i, r = i + 1 ∧ lastChangedAt tfls varName finalVal i ∧
            ∀ j, i < j → j + 1 < tfls.length →
              ¬ lastChangedAt tfls varName finalVal j) ∧
        (findLastChanged tfls varName = none →
          ∀ j, j + 1 < tfls.length →
            ¬ lastChangedAt tfls varName finalVal j))) ∧
    findLastChanged neverChangedTimeline ("x") = none := by
  refine ⟨?_, ?_, rfl⟩
  · intro h0
    unfold findLastChanged
    rw [if_pos h0]
  · intro lastStep hlast
    have hl0 : ¬ tfls.length = 0 := by
      intro h0
      have hnil : tfls = [] := List.length_eq_zero.mp h0
      subst hnil
      exact absurd hlast (by simp)
    refine ⟨?_, ?_, ?_⟩
    · intro hvs
      simp [findLastChanged, hl0, hlast, hvs]
    · intro hgv
      by_cases hvs : hasValidState lastStep = true
      · simp [findLastChanged, hl0, hlast, hvs, hgv]
      · simp [findLastChanged, hl0, hlast, hvs]
    · intro finalVal hvs hgv
      by_cases hlen2 : 2 ≤ tfls.length
      · have heq := findLastChanged_eq hlen2 hlast hvs hgv
        constructor
        · intro r hr
          rw [heq] at hr
          obtain ⟨k, hk1, hk2, hk3, hk4⟩ := flScanGo_eq_some hr
          refine ⟨k, hk1, lastChangedCheck_iff.mp hk3, ?_⟩
          intro j hj1 hj2 hcj
          have hfalse := hk4 j hj1 (by omega)
          rw [lastChangedCheck_iff.mpr hcj] at hfalse
          exact absurd hfalse (by simp)
        · intro hnone j hj hcj
          rw [heq] at hnone
          have hfalse := flScanGo_eq_none hnone j (by omega)
          rw [lastChangedCheck_iff.mpr hcj] at hfalse
          exact absurd hfalse (by simp)
      · constructor
        · intro r hr
          simp [findLastChanged, hl0, hlast, hvs, hgv, hlen2] at hr
        · intro hnone j hj
          omega

/-- Witness for C3: the theorem applied at a two-step timeline where `x`
changes between the steps characterizes the returned index 1. -/
theorem findLastChanged_spec_witness :
    ∃ i, 1 = i + 1 ∧ lastChangedAt twoStepTimeline ("x") ("1") i ∧
      ∀ j, i < j → j + 1 < twoStepTimeline.length →
        ¬ lastChangedAt twoStepTimeline ("x") ("1") j :=
  (((findLastChanged_spec twoStepTimeline ("x")).2.1
      (Step.mk (some [(("x"), RawValue.str ("1"))])) rfl).2.2
      ("1") rfl rfl).1 1 rfl

/-- A valid navigation target for claim C8: an in-range index whose step has
non-empty state and defines the queried variable. -/
def validTarget (tfls : List Step) (varName : String) (i : Nat) : Prop :=
  i < tfls.length ∧ ∃ step, tfls[i]? = some step ∧ hasValidState step = true ∧
    ∃ x, getVariableValue step varName = some x

lemma changedCheck_validTarget {tfls : List Step} {vn cv : String} {i : Nat}
    (h : changedCheck tfls vn cv i = true) : validTarget tfls vn i := by
  obtain ⟨step, hst, hvs, x, hx, -⟩ := changedCheck_iff.mp h
  have hlen : i < tfls.length := by
    by_contra hge
    rw [List.getElem?_eq_none (by omega)] at hst
    exact absurd hst (by simp)
  exact ⟨hlen, step, hst, hvs, x, hx⟩

/-- Claim C8: any index returned by `findPreviouslyChanged` or
`findNextChanged` is a valid timeline index whose step has non-empty state
and in which the queried variable has a defined projected value. -/
theorem nav_returns_valid_target (tfls : List Step) (varName : String)
    (cur : Int) (i : Nat) :
    (findPreviouslyChanged tfls varName cur = .ok (some i) →
      validTarget tfls varName i) ∧
    (findNextChanged tfls varName cur = .ok (some i) →
      validTarget tfls varName i) := by
  constructor
  · intro h
    unfold findPreviouslyChanged at h
    split at h
    · exact absurd h (by simp)
    · split at h
      · exact absurd h (by simp)
      · split at h
        · exact absurd h (by simp)
        · rename_i cv hgv
          have hsb : scanBackward tfls varName cv (cur.toNat - 1) = some i := by
            simpa using h
          exact changedCheck_validTarget (scanBackward_eq_some hsb).2.1
  · intro h
    unfold findNextChanged at h
    split at h
    · exact absurd h (by simp)
    · split at h
      · exact absurd h (by simp)
      · split at h
        · exact absurd h (by simp)
        · rename_i cv hgv
          have hsf : scanForwardGo tfls varName cv (cur.toNat + 1) tfls.length =
              some i := by simpa using h
          exact changedCheck_validTarget (scanForwardGo_eq_some hsf)

/-- Witness for C8: at the scenario timeline, the index 2 that
`findPreviouslyChanged('ptr', 3)` returns is a valid target. -/
theorem nav_returns_valid_target_witness : validTarget scenarioTimeline ("ptr") 2 :=
  (nav_returns_valid_target scenarioTimeline ("ptr") 3 2).1 rfl

/-- Claim C10: for any current index that `getCurrentStepIndex` can produce
(at least -1 and below the timeline length), none of the four navigation
queries raises: `findPreviouslyChanged` and `findNextChanged` always return
a value (never the `Except` error marking a JavaScript throw), and on an
empty timeline all four return the not-found sentinel. -/
theorem nav_never_raises (tfls : List Step) (varName : String) (cur : Int)
    (h1 : -1 ≤ cur) (h2 : cur < (tfls.length : Int)) :
    ((∃ r, findPreviouslyChanged tfls varName cur = .ok r) ∧
      (∃ r, findNextChanged tfls varName cur = .ok r)) ∧
    (tfls = [] →
      findInitialized tfls varName = none ∧ findLastChanged tfls varName = none ∧
      findPreviouslyChanged tfls varName cur = .ok none ∧
      findNextChanged tfls varName cur = .ok none) := by
  constructor
  · constructor
    · by_cases h0 : cur ≤ 0
      · exact ⟨none, by unfold findPreviouslyChanged; rw [if_pos h0]⟩
      · have hn : cur.toNat < tfls.length := by omega
        have hjs : jsGet tfls cur = some tfls[cur.toNat] := by
          unfold jsGet
          rw [if_pos (by omega)]
          exact List.getElem?_eq_getElem hn
        cases hgv : getVariableValue tfls[cur.toNat] varName with
        | none =>
          refine ⟨none, ?_⟩
          simp [findPreviouslyChanged, h0, hjs, hgv]
        | some cv =>
          refine ⟨scanBackward tfls varName cv (cur.toNat - 1), ?_⟩
          simp [findPreviouslyChanged, h0, hjs, hgv]
    · by_cases hg : cur = -1 ∨ cur ≥ (tfls.length : Int) - 1
      · exact ⟨none, by unfold findNextChanged; rw [if_pos hg]⟩
      · have hcur0 : 0 ≤ cur := by omega
        have hn : cur.toNat < tfls.length := by omega
        have hjs : jsGet tfls cur = some tfls[cur.toNat] := by
          unfold jsGet
          rw [if_pos hcur0]
          exact List.getElem?_eq_getElem hn
        cases hgv : getVariableValue tfls[cur.toNat] varName with
        | none =>
          refine ⟨none, ?_⟩
          unfold findNextChanged
          rw [if_neg hg]
          simp [hjs, hgv]
        | some cv =>
          refine ⟨scanForwardGo tfls varName cv (cur.toNat + 1) tfls.length, ?_⟩
          unfold findNextChanged
          rw [if_neg hg]
          simp [hjs, hgv]
  · rintro rfl
    have hm1 : cur = -1 := by
      have h3 : cur < 0 := by simpa using h2
      omega
    subst hm1
    refine ⟨rfl, rfl, ?_, ?_⟩
    · unfold findPreviouslyChanged
      rw [if_pos (by omega)]
    · unfold findNextChanged
      rw [if_pos (Or.inl rfl)]

/-- Witness for C10: the empty timeline with the index `findIndex` returns
on it, `-1`. -/
theorem nav_never_raises_witness :
    ((∃ r, findPreviouslyChanged [] ("x") (-1) = .ok r) ∧
      (∃ r, findNextChanged [] ("x") (-1) = .ok r)) ∧
    (([] : List Step) = [] →
      findInitialized [] ("x") = none ∧ findLastChanged [] ("x") = none ∧
      findPreviouslyChanged [] ("x") (-1) = .ok none ∧
      findNextChanged [] ("x") (-1) = .ok none) :=
  nav_never_raises [] ("x") (-1) (by decide) (by decide)

lemma substTemplate_no_dollar (b m a : List Char) :
    ∀ tpl : List Char, '$' ∉ tpl → substTemplate b m a tpl = tpl := by
  intro tpl
  induction tpl with
  | nil => intro h; rfl
  | cons c0 rest ih =>
    intro h
    have hc : ¬ c0 = '$' := fun hc => h (by simp [hc])
    have hrest : '$' ∉ rest := fun hr => h (List.mem_cons_of_mem _ hr)
    unfold substTemplate
    rw [if_neg hc, ih hrest]

lemma replaceExprGo_no_dollar {key source : List Char} (hk : '$' ∉ key) :
    ∀ (fuel p : Nat) (l : List Char),
      replaceExprGo ('(' :: (key ++ [')'])) source fuel p l =
        literalReplaceGo key fuel l := by
  have htpl : '$' ∉ ('(' :: (key ++ [')'])) := by
    intro hmem
    rcases List.mem_cons.mp hmem with h1 | h2
    · exact absurd h1 (by decide)
    · rcases List.mem_append.mp h2 with h3 | h4
      · exact hk h3
      · exact absurd (List.mem_singleton.mp h4) (by decide)
  intro fuel
  induction fuel with
  | zero => intro p l; cases l <;> rfl
  | succ n ih =>
    intro p l
    cases l with
    | nil => rfl
    | cons c0 rest =>
      unfold replaceExprGo literalReplaceGo
      by_cases hcond : c0 = '{' ∧ rest.take 5 = ['e', 'x', 'p', 'r', '}']
      · rw [if_pos hcond, if_pos hcond, substTemplate_no_dollar _ _ _ _ htpl, ih]
        simp
      · rw [if_neg hcond, if_neg hcond, ih]

/-- Claim C7 counterexample: an object value whose `text` field is the empty
string is "an object with a `text` field", yet the projection does not use
that field (the JavaScript truthiness test sends it to
`String(value) = "[object Object]"`); and the replacement string
`(${key})` undergoes JavaScript `GetSubstitution`, so the key `a$&` with
the value `"{expr}"` projects to `"(a{expr})"`, not `"(" + key + ")"`. -/
theorem project_empty_text_cex :
    processedValue ("count") (RawValue.obj (some (""))) = ("[object Object]") ∧
    processedValue ("count") (RawValue.obj (some (""))) ≠ ("") ∧
    processedValue ("a$&") (RawValue.str ("{expr}")) = ("(a{expr})") ∧
    processedValue ("a$&") (RawValue.str ("{expr}")) ≠ ("(a$&)") := by decide

/-- Claim C7 (amended): the projected display value equals the `text` field
when the raw value is an object with a non-empty `text` field, and otherwise
the canonical string form (`"[object Object]"` for objects without a usable
`text`, the primitive's string form otherwise); then every `{expr}` in the
display value is replaced by the `GetSubstitution` expansion of the
replacement string `(` + key + `)` (in which `$$`, `$&`, `` $` `` and `$'`
are substituted) - for a key containing no `$` this inserts `(` + key +
`)` verbatim, and in particular `"{expr} == 5"` under key `count` projects
to `"(count) == 5"`. -/
theorem project_spec_amended (key t s : String) (n : Int) (b : Bool) :
    (t ≠ "" → processedValue key (RawValue.obj (some t)) = replaceExpr key t) ∧
    processedValue key (RawValue.str s) = replaceExpr key s ∧
    processedValue key (RawValue.num n) = replaceExpr key (toString n) ∧
    processedValue key (RawValue.boolv b) =
      replaceExpr key (if b then ("true") else ("false")) ∧
    processedValue key (RawValue.obj none) = replaceExpr key ("[object Object]") ∧
    processedValue key (RawValue.obj (some (""))) =
      replaceExpr key ("[object Object]") ∧
    ('$' ∉ key.toList → replaceExpr key s = literalReplaceExpr key s) ∧
    processedValue ("count") (RawValue.str ("{expr} == 5")) = ("(count) == 5") := by
  refine ⟨?_, rfl, rfl, rfl, rfl, ?_, ?_, by decide⟩
  · intro ht
    simp [processedValue, displayValue, ht]
  · simp [processedValue, displayValue]
  · intro hk
    unfold replaceExpr literalReplaceExpr
    rw [replaceExprGo_no_dollar hk]

/-- Witness for C7 (amended) at a concrete non-empty `text` field and a
concrete `$`-free key. -/
theorem project_spec_amended_witness :
    processedValue ("k") (RawValue.obj (some ("v"))) = replaceExpr ("k") ("v") ∧
    replaceExpr ("count") ("{expr} == 5") = literalReplaceExpr ("count") ("{expr} == 5") :=
  ⟨(project_spec_amended ("k") ("v") ("") 0 true).1 (by decide),
   (project_spec_amended ("count") ("") ("{expr} == 5") 0 true).2.2.2.2.2.2.1 (by decide)⟩

/-! The table sort state (claim C9). -/

/-- The accessor of the named column of statesTableStore.ts: the `Key`
column reads `state.key` (width 150), the `Value` column reads
`state.value` (width 200). -/
def columnAccessor (name : String) (e : StateEntry) : String :=
  if name = ("Value") then e.value else e.key

/-- Modelled from the spec: tableStore.ts (the generic `TableStore` base
class owning the mutable sort column and direction) is not part of the
repository snapshot - only its subclass statesTableStore.ts and tests are.
Per the spec the engine maintains a current sort column and direction. -/
structure SortState where
  sortColumn : String
  sortDescending : Bool
deriving DecidableEq

/-- Modelled from the spec: `toggleSort(columnName)`: if the named column is
already the active sort column, flips direction; otherwise sets it active
with ascending direction. -/
def toggleSort (st : SortState) (columnName : String) : SortState :=
  if st.sortColumn = columnName then ⟨st.sortColumn, !st.sortDescending⟩
  else ⟨columnName, false⟩

/-- Lexicographic character-list order (the string comparison used to sort
rows). -/
def charListLt : List Char → List Char → Bool
  | [], [] => false
  | [], _ :: _ => true
  | _ :: _, [] => false
  | a :: as, b :: bs =>
    if a.toNat < b.toNat then true
    else if b.toNat < a.toNat then false
    else charListLt as bs

/-- String order for the row sort. -/
def strLt (a b : String) : Bool := charListLt a.toList b.toList

/-- Modelled from the spec: rows are sorted "by the active column's accessor
using a total order (string comparison)", with the direction toggling
ascending/descending; a stable insertion sort. -/
def rowLt (st : SortState) (a b : StateEntry) : Bool :=
  if st.sortDescending then
    strLt (columnAccessor st.sortColumn b) (columnAccessor st.sortColumn a)
  else
    strLt (columnAccessor st.sortColumn a) (columnAccessor st.sortColumn b)

/-- Stable insertion for the row sort. -/
def insertRow (st : SortState) (x : StateEntry) : List StateEntry → List StateEntry
  | [] => [x]
  | y :: ys => if rowLt st x y then x :: y :: ys else y :: insertRow st x ys

/-- The sorted flat row list (the states table has a single group and no
group headers, so `rows` is just the sorted entries). -/
def sortRows (st : SortState) : List StateEntry → List StateEntry
  | [] => []
  | x :: xs => insertRow st x (sortRows st xs)

/-- The default sort state of `StatesTableStore`: its constructor sets
`sortColumn` to the first column's name, `Key`; the initial direction is
ascending. -/
def initialSortState : SortState := ⟨("Key"), false⟩

/-- The entries of C9's counterexample. -/
def demoEntries : List StateEntry := [⟨("a"), ("1")⟩, ⟨("b"), ("2")⟩]

/-- Claim C9 counterexample: with the default state (sorted by `Key`
ascending), calling `toggleSort("Value")` twice leaves the table sorted by
`Value` descending - the original ascending row order is not restored. -/
theorem toggleSort_twice_cex :
    sortRows (toggleSort (toggleSort initialSortState ("Value")) ("Value"))
        demoEntries ≠
      sortRows initialSortState demoEntries ∧
    toggleSort (toggleSort initialSortState ("Value")) ("Value") ≠
      initialSortState := by decide

/-- Claim C9 (amended): calling `toggleSort` twice with the same column name
restores the previous sort state and row order exactly when that column was
already the active sort column; otherwise the two calls leave the named
column active with descending direction. -/
theorem toggleSort_twice_amended (entities : List StateEntry) (st : SortState)
    (c : String) :
    (st.sortColumn = c →
      toggleSort (toggleSort st c) c = st ∧
      sortRows (toggleSort (toggleSort st c) c) entities = sortRows st entities) ∧
    (st.sortColumn ≠ c →
      toggleSort (toggleSort st c) c = SortState.mk c true) := by
  constructor
  · intro hc
    have ht : toggleSort (toggleSort st c) c = st := by
      simp [toggleSort, hc]
      rw [← hc]
    exact ⟨ht, by rw [ht]⟩
  · intro hc
    simp [toggleSort, hc]

/-- Witness for C9 (amended): double toggle on the already-active `Key`
column restores the initial state and row order. -/
theorem toggleSort_twice_amended_witness :
    toggleSort (toggleSort initialSortState ("Key")) ("Key") = initialSortState ∧
    sortRows (toggleSort (toggleSort initialSortState ("Key")) ("Key"))
        demoEntries =
      sortRows initialSortState demoEntries :=
  (toggleSort_twice_amended demoEntries initialSortState ("Key")).1 rfl

end SarifStates
